import Mathlib

/-
Verification of the Kepler propagation kernel in src/integrator_mikkola.c.

Doubles are modelled as real numbers.  IEEE-special-value behaviour of the
two convergence guards is kept faithfully: in C a quotient with zero
denominator is NaN or an infinity and therefore never satisfies a
less-than test, so each guard `fabs(a/b) < tol` is embedded as
`b ≠ 0 ∧ |a / b| < tol`.  The unbounded C loops (the Newton do-while and
the recursion in the Stumpff reducer) are modelled with an explicit fuel
parameter returning an Option, or by well-founded recursion where the
source recursion provably terminates.
-/

namespace Mikkola

/-- One body: position, velocity and mass, mirroring struct particle. -/
structure Particle where
  x : ℝ
  y : ℝ
  z : ℝ
  vx : ℝ
  vy : ℝ
  vz : ℝ
  m : ℝ

/-- Global simulation state: the particle array and the clock t. -/
structure SimState where
  particles : List Particle
  t : ℝ

/-- The 35-entry reciprocal factorial lookup table, transcribed literally
from the C source (each denominator is the exact integer k!). -/
noncomputable def invfactorial : List ℝ :=
  [1, 1, 1/2, 1/6, 1/24, 1/120, 1/720, 1/5040, 1/40320, 1/362880,
   1/3628800, 1/39916800, 1/479001600, 1/6227020800, 1/87178291200,
   1/1307674368000, 1/20922789888000, 1/355687428096000,
   1/6402373705728000, 1/121645100408832000, 1/2432902008176640000,
   1/51090942171709440000, 1/1124000727777607680000,
   1/25852016738884976640000, 1/620448401733239439360000,
   1/15511210043330985984000000, 1/403291461126605635584000000,
   1/10888869450418352160768000000, 1/304888344611713860501504000000,
   1/8841761993739701954543616000000, 1/265252859812191058636308480000000,
   1/8222838654177922817725562880000000,
   1/263130836933693530167218012160000000,
   1/8683317618811886495518194401280000000,
   1/295232799039604140847618609643520000000]

/-- Table access invfactorial[k] (out-of-range access is undefined
behaviour in C; the default 0 is never reached for in-range indices). -/
noncomputable def invfacD (k : ℕ) : ℝ := invfactorial.getD k 0

/-- The j-th series term pow(-z,j)*invfactorial[n+2*j] of c_n_series. -/
noncomputable def sTerm (n : ℕ) (z : ℝ) (j : ℕ) : ℝ := (-z) ^ j * invfacD (n + 2 * j)

/-- The body of the 13-term accumulation loop of c_n_series: index j,
accumulator acc, with the early-exit test exactly as in the source
(`fabs(term/c_n) < 1e-17`, which in IEEE arithmetic can only hold when
the accumulator is nonzero). -/
noncomputable def seriesGo (n : ℕ) (z : ℝ) (j : ℕ) (acc : ℝ) : ℝ :=
  if h : j < 13 then
    let acc2 := acc + sTerm n z j
    if acc2 ≠ 0 ∧ |sTerm n z j / acc2| < 1 / 10 ^ 17 then acc2
    else seriesGo n z (j + 1) acc2
  else acc
termination_by 13 - j
decreasing_by omega

/-- c_n_series(n,z) from the source: 13-term Stumpff power series with
early exit. -/
noncomputable def c_n_series (n : ℕ) (z : ℝ) : ℝ := seriesGo n z 0 0

/-- Termination measure for the quadrupling recursion: each recursive
call replaces z by z/4 and is only made when 1/2 < z. -/
lemma quarterMeasure {z : ℝ} (h : 1 / 2 < z) : ⌈2 * (z / 4)⌉₊ < ⌈2 * z⌉₊ := by
  have h0 : (0 : ℝ) < z := lt_trans (by norm_num) h
  rcases le_or_lt z 2 with hz2 | hz2
  · have h1 : ⌈2 * (z / 4)⌉₊ ≤ 1 := by
      rw [Nat.ceil_le]
      push_cast
      linarith
    have h2 : 1 < ⌈2 * z⌉₊ := by
      rw [Nat.lt_ceil]
      push_cast
      linarith
    omega
  · rw [Nat.lt_ceil]
    have hnn : (0 : ℝ) ≤ 2 * (z / 4) := by linarith
    have := Nat.ceil_lt_add_one hnn
    push_cast at this ⊢
    linarith

/-- c(n,z) from the source: for z > 0.5 apply the 4-folding reduction for
n = 0..5 (the switch has no default, so any other n falls through), and
otherwise evaluate the series directly. -/
noncomputable def c (n : ℕ) (z : ℝ) : ℝ :=
  if h : 1 / 2 < z then
    match n with
    | 0 =>
      let cn4 := c 3 (z / 4) * (1 + c 1 (z / 4)) / 8
      let cn2 := 1 / 2 - z * cn4
      1 - z * cn2
    | 1 =>
      let cn5 := (c 5 (z / 4) + c 4 (z / 4) + c 3 (z / 4) * c 2 (z / 4)) / 16
      let cn3 := 1 / 6 - z * cn5
      1 - z * cn3
    | 2 =>
      let cn4 := c 3 (z / 4) * (1 + c 1 (z / 4)) / 8
      1 / 2 - z * cn4
    | 3 =>
      let cn5 := (c 5 (z / 4) + c 4 (z / 4) + c 3 (z / 4) * c 2 (z / 4)) / 16
      1 / 6 - z * cn5
    | 4 => c 3 (z / 4) * (1 + c 1 (z / 4)) / 8
    | 5 => (c 5 (z / 4) + c 4 (z / 4) + c 3 (z / 4) * c 2 (z / 4)) / 16
    | _ => c_n_series n z
  else c_n_series n z
termination_by ⌈2 * z⌉₊
decreasing_by all_goals exact quarterMeasure h

/-- integrator_G(n,beta,X) = pow(X,n)*c(n,beta*X*X). -/
noncomputable def integrator_G (n : ℕ) (beta X : ℝ) : ℝ :=
  X ^ n * c n (beta * X * X)

/-- One pass of the Newton do-while loop of kepler_step, with fuel. The
exit test is the source test `fabs(dX/X) < 1e-15` applied to the updated
X; as an IEEE comparison it can only hold when that X is nonzero. -/
noncomputable def newtonGo (r0 eta zeta beta dtv : ℝ) : ℕ → ℝ → Option ℝ
  | 0, _ => none
  | fuel + 1, X =>
    let G1 := integrator_G 1 beta X
    let G2 := integrator_G 2 beta X
    let G3 := integrator_G 3 beta X
    let s := r0 * X + eta * G2 + zeta * G3 - dtv
    let sp := r0 + eta * G1 + zeta * G2
    let dX := -s / sp
    let X2 := X + dX
    if X2 ≠ 0 ∧ |dX / X2| < 1 / 10 ^ 15 then some X2
    else newtonGo r0 eta zeta beta dtv fuel X2

/-- The Newton iteration of kepler_step, started from the initial guess
X = 0 as in the source. -/
noncomputable def keplerSolveX (r0 eta zeta beta dtv : ℝ) (fuel : ℕ) : Option ℝ :=
  newtonGo r0 eta zeta beta dtv fuel 0

/-- r0 = sqrt(x*x + y*y + z*z) of a body. -/
noncomputable def r0v (p : Particle) : ℝ :=
  Real.sqrt (p.x * p.x + p.y * p.y + p.z * p.z)

/-- v2 = vx*vx + vy*vy + vz*vz of a body. -/
noncomputable def v2v (p : Particle) : ℝ :=
  p.vx * p.vx + p.vy * p.vy + p.vz * p.vz

/-- beta = 2*M/r0 - v2. -/
noncomputable def betav (M : ℝ) (p : Particle) : ℝ :=
  2 * M / r0v p - v2v p

/-- eta = x*vx + y*vy + z*vz. -/
noncomputable def etav (p : Particle) : ℝ :=
  p.x * p.vx + p.y * p.vy + p.z * p.vz

/-- zeta = M - beta*r0. -/
noncomputable def zetav (M : ℝ) (p : Particle) : ℝ :=
  M - betav M p * r0v p

/-- r = r0 + eta*G1 + zeta*G2, evaluated at the converged X. -/
noncomputable def rAfter (M : ℝ) (p : Particle) (X : ℝ) : ℝ :=
  r0v p + etav p * integrator_G 1 (betav M p) X
    + zetav M p * integrator_G 2 (betav M p) X

/-- f = 1 - M*G2/r0. -/
noncomputable def fCoef (M : ℝ) (p : Particle) (X : ℝ) : ℝ :=
  1 - M * integrator_G 2 (betav M p) X / r0v p

/-- g = dt - M*G3. -/
noncomputable def gCoef (M dtv : ℝ) (p : Particle) (X : ℝ) : ℝ :=
  dtv - M * integrator_G 3 (betav M p) X

/-- fd = -M*G1/(r0*r). -/
noncomputable def fdCoef (M : ℝ) (p : Particle) (X : ℝ) : ℝ :=
  (-M) * integrator_G 1 (betav M p) X / (r0v p * rAfter M p X)

/-- gd = 1 - M*G2/r. -/
noncomputable def gdCoef (M : ℝ) (p : Particle) (X : ℝ) : ℝ :=
  1 - M * integrator_G 2 (betav M p) X / rAfter M p X

/-- kepler_step(i) on one body: compute the invariants from the current
state, run the Newton iteration from X = 0, then perform the six
in-place assignments of the source in order (the position fields are
overwritten first, and the velocity assignments read the just-written
position fields). Returns none when the fueled Newton loop does not
exit. -/
noncomputable def kepler_step (fuel : ℕ) (dtv M : ℝ) (p : Particle) : Option Particle :=
  match keplerSolveX (r0v p) (etav p) (zetav M p) (betav M p) dtv fuel with
  | none => none
  | some X =>
    let f := fCoef M p X
    let g := gCoef M dtv p X
    let fd := fdCoef M p X
    let gd := gdCoef M p X
    let q1 : Particle := { p with x := f * p.x + g * p.vx }
    let q2 : Particle := { q1 with y := f * q1.y + g * q1.vy }
    let q3 : Particle := { q2 with z := f * q2.z + g * q2.vz }
    let q4 : Particle := { q3 with vx := fd * q3.x + gd * q3.vx }
    let q5 : Particle := { q4 with vy := fd * q4.y + gd * q4.vy }
    let q6 : Particle := { q5 with vz := fd * q5.z + gd * q5.vz }
    some q6

/-- The loop `for(i=1;i<N;i++) kepler_step(i)` over the non-central
bodies, given the central mass M; none if any body fails to converge. -/
noncomputable def stepAll (fuel : ℕ) (dtv M : ℝ) : List Particle → Option (List Particle)
  | [] => some []
  | p :: ps =>
    match kepler_step fuel dtv M p with
    | none => none
    | some q =>
      match stepAll fuel dtv M ps with
      | none => none
      | some qs => some (q :: qs)

/-- integrator_part2: apply kepler_step to bodies 1..N-1 (body 0 is the
central mass, never propagated) and then advance the clock by dt. -/
noncomputable def integrator_part2 (fuel : ℕ) (dtv : ℝ) (s : SimState) : Option SimState :=
  match s.particles with
  | [] => some ⟨[], s.t + dtv⟩
  | p0 :: rest =>
    match stepAll fuel dtv p0.m rest with
    | none => none
    | some rest2 => some ⟨p0 :: rest2, s.t + dtv⟩

/-- Specification-side universal Kepler equation
s(X) = r0*X + eta*G2(X) + zeta*G3(X) - dt, transcribed from the spec. -/
noncomputable def sUniv (r0 eta zeta beta dtv X : ℝ) : ℝ :=
  r0 * X + eta * integrator_G 2 beta X + zeta * integrator_G 3 beta X - dtv

/-- Specification-side derivative sp(X) = r0 + eta*G1(X) + zeta*G2(X). -/
noncomputable def spUniv (r0 eta zeta beta X : ℝ) : ℝ :=
  r0 + eta * integrator_G 1 beta X + zeta * integrator_G 2 beta X

/-- Specification-side partial sum of the first k Stumpff series terms. -/
noncomputable def sumUpTo (n : ℕ) (z : ℝ) (k : ℕ) : ℝ :=
  ∑ j ∈ Finset.range k, sTerm n z j

/-- The full 13-term Stumpff series sum (no early exit). -/
noncomputable def fullSum (n : ℕ) (z : ℝ) : ℝ := sumUpTo n z 13

/-- The early-exit condition of c_n_series after the term of index j has
been accumulated. -/
def sGuard (n : ℕ) (z : ℝ) (j : ℕ) : Prop :=
  sumUpTo n z (j + 1) ≠ 0 ∧ |sTerm n z j / sumUpTo n z (j + 1)| < 1 / 10 ^ 17

/-- Ratio of the absolute values of consecutive series terms,
|sTerm(j+1)| = |sTerm j| * rq j; used in the early-exit error analysis. -/
noncomputable def rq (n : ℕ) (z : ℝ) (j : ℕ) : ℝ :=
  |z| / (((n : ℝ) + 2 * j + 1) * ((n : ℝ) + 2 * j + 2))

/-- Specification-side quadrupling recurrence for z > 1/2, written from
the recurrences listed in the spec (section 4.2), to be compared with
the source function c. -/
noncomputable def cSpecQuad (n : ℕ) (z : ℝ) : ℝ :=
  let c4z := c 3 (z / 4) * (1 + c 1 (z / 4)) / 8
  let c2z := 1 / 2 - z * c4z
  let c0z := 1 - z * c2z
  let c5z := (c 5 (z / 4) + c 4 (z / 4) + c 3 (z / 4) * c 2 (z / 4)) / 16
  let c3z := 1 / 6 - z * c5z
  let c1z := 1 - z * c3z
  match n with
  | 0 => c0z
  | 1 => c1z
  | 2 => c2z
  | 3 => c3z
  | 4 => c4z
  | 5 => c5z
  | _ => 0

/-- Fuel-indexed evaluation of the quadrupling recursion: none when the
recursion depth exceeds the fuel, otherwise the value computed by
bottoming out in the series evaluator. Used to state that the
self-referential recursion of c terminates. -/
noncomputable def cFuel : ℕ → ℕ → ℝ → Option ℝ
  | 0, _, _ => none
  | k + 1, n, z =>
    if 1 / 2 < z then
      match n with
      | 0 =>
        (cFuel k 3 (z / 4)).bind fun a =>
          (cFuel k 1 (z / 4)).map fun b =>
            1 - z * (1 / 2 - z * (a * (1 + b) / 8))
      | 1 =>
        (cFuel k 5 (z / 4)).bind fun a =>
          (cFuel k 4 (z / 4)).bind fun b =>
            (cFuel k 3 (z / 4)).bind fun d =>
              (cFuel k 2 (z / 4)).map fun e =>
                1 - z * (1 / 6 - z * ((a + b + d * e) / 16))
      | 2 =>
        (cFuel k 3 (z / 4)).bind fun a =>
          (cFuel k 1 (z / 4)).map fun b =>
            1 / 2 - z * (a * (1 + b) / 8)
      | 3 =>
        (cFuel k 5 (z / 4)).bind fun a =>
          (cFuel k 4 (z / 4)).bind fun b =>
            (cFuel k 3 (z / 4)).bind fun d =>
              (cFuel k 2 (z / 4)).map fun e =>
                1 / 6 - z * ((a + b + d * e) / 16)
      | 4 =>
        (cFuel k 3 (z / 4)).bind fun a =>
          (cFuel k 1 (z / 4)).map fun b => a * (1 + b) / 8
      | 5 =>
        (cFuel k 5 (z / 4)).bind fun a =>
          (cFuel k 4 (z / 4)).bind fun b =>
            (cFuel k 3 (z / 4)).bind fun d =>
              (cFuel k 2 (z / 4)).map fun e => (a + b + d * e) / 16
      | _ => some (c_n_series n z)
    else some (c_n_series n z)

/-- The invfactorial indices read by one full run of the series loop of
c_n_series(n,-): n + 2*j for j = 0..12 (an over-approximation of the
indices actually reached before an early exit). -/
def seriesAccesses (n : ℕ) : List ℕ :=
  (List.range 13).map fun j => n + 2 * j

/-- All invfactorial indices read while evaluating c(n,z), collected
along the same branch and recursion structure as c itself. -/
noncomputable def cAccesses (n : ℕ) (z : ℝ) : List ℕ :=
  if h : 1 / 2 < z then
    match n with
    | 0 => cAccesses 3 (z / 4) ++ cAccesses 1 (z / 4)
    | 1 => cAccesses 5 (z / 4) ++ cAccesses 4 (z / 4)
        ++ cAccesses 3 (z / 4) ++ cAccesses 2 (z / 4)
    | 2 => cAccesses 3 (z / 4) ++ cAccesses 1 (z / 4)
    | 3 => cAccesses 5 (z / 4) ++ cAccesses 4 (z / 4)
        ++ cAccesses 3 (z / 4) ++ cAccesses 2 (z / 4)
    | 4 => cAccesses 3 (z / 4) ++ cAccesses 1 (z / 4)
    | 5 => cAccesses 5 (z / 4) ++ cAccesses 4 (z / 4)
        ++ cAccesses 3 (z / 4) ++ cAccesses 2 (z / 4)
    | _ => seriesAccesses n
  else seriesAccesses n
termination_by ⌈2 * z⌉₊
decreasing_by all_goals exact quarterMeasure h

/-- Concrete non-central body used to exercise the solver: position
(1,0,0), velocity (0,0,0), mass 1. -/
noncomputable def pbody : Particle := ⟨1, 0, 0, 0, 0, 0, 1⟩

/-- Concrete central body of mass 0 (so that every Gauss coefficient is
evaluated without any Stumpff series work). -/
noncomputable def pcentral : Particle := ⟨0, 0, 0, 0, 0, 0, 0⟩

/-- Concrete two-body system at t = 0. -/
noncomputable def sys0 : SimState := ⟨[pcentral, pbody], 0⟩

/- ------------------------------------------------------------------ -/
/- Equation lemmas for the quadrupling reducer.                        -/
/- ------------------------------------------------------------------ -/

lemma c_eq_series (n : ℕ) (z : ℝ) (hz : ¬ 1 / 2 < z) : c n z = c_n_series n z := by
  rcases n with _|_|_|_|_|_|n
  all_goals rw [c]
  all_goals try rw [dif_neg hz]
  all_goals omega

lemma c_zero_quad (z : ℝ) (hz : 1 / 2 < z) :
    c 0 z = 1 - z * (1 / 2 - z * (c 3 (z / 4) * (1 + c 1 (z / 4)) / 8)) := by
  conv_lhs => rw [c, dif_pos hz]

lemma c_one_quad (z : ℝ) (hz : 1 / 2 < z) :
    c 1 z = 1 - z * (1 / 6 - z *
      ((c 5 (z / 4) + c 4 (z / 4) + c 3 (z / 4) * c 2 (z / 4)) / 16)) := by
  conv_lhs => rw [c, dif_pos hz]

lemma c_two_quad (z : ℝ) (hz : 1 / 2 < z) :
    c 2 z = 1 / 2 - z * (c 3 (z / 4) * (1 + c 1 (z / 4)) / 8) := by
  conv_lhs => rw [c, dif_pos hz]

lemma c_three_quad (z : ℝ) (hz : 1 / 2 < z) :
    c 3 z = 1 / 6 - z *
      ((c 5 (z / 4) + c 4 (z / 4) + c 3 (z / 4) * c 2 (z / 4)) / 16) := by
  conv_lhs => rw [c, dif_pos hz]

lemma c_four_quad (z : ℝ) (hz : 1 / 2 < z) :
    c 4 z = c 3 (z / 4) * (1 + c 1 (z / 4)) / 8 := by
  conv_lhs => rw [c, dif_pos hz]

lemma c_five_quad (z : ℝ) (hz : 1 / 2 < z) :
    c 5 z = (c 5 (z / 4) + c 4 (z / 4) + c 3 (z / 4) * c 2 (z / 4)) / 16 := by
  conv_lhs => rw [c, dif_pos hz]

lemma c_fallthrough (n : ℕ) (z : ℝ) (hn : 6 ≤ n) (hz : 1 / 2 < z) :
    c n z = c_n_series n z := by
  obtain ⟨k, rfl⟩ := Nat.exists_eq_add_of_le hn
  rw [Nat.add_comm 6 k]
  rw [c]
  · rw [dif_pos hz]
  all_goals omega

/-- Claim C5: for n in {0,...,5}, c delegates to the series for
z ≤ 0.5 (in particular for every z < 0), and for z > 0.5 it applies the
fixed quadrupling recurrences over the recursively computed values at
z/4 exactly as listed in the spec (transcribed in cSpecQuad). -/
theorem claim_C5 (n : ℕ) (hn : n ≤ 5) (z : ℝ) :
    (z ≤ 1 / 2 → c n z = c_n_series n z) ∧
    (1 / 2 < z → c n z = cSpecQuad n z) := by
  constructor
  · intro h
    exact c_eq_series n z (not_lt.mpr h)
  · intro h
    interval_cases n
    · rw [c_zero_quad z h]; rfl
    · rw [c_one_quad z h]; rfl
    · rw [c_two_quad z h]; rfl
    · rw [c_three_quad z h]; rfl
    · rw [c_four_quad z h]; rfl
    · rw [c_five_quad z h]; rfl

/-- Witness for C5 at n = 0, z = 1. -/
theorem claim_C5_witness :
    ((1 : ℝ) ≤ 1 / 2 → c 0 1 = c_n_series 0 1) ∧
    ((1 : ℝ) / 2 < 1 → c 0 1 = cSpecQuad 0 1) :=
  claim_C5 0 (by norm_num) 1

/-- Claim C10: for every n ≥ 6 and z > 0.5 the switch of c has no
matching case and no default, so the call falls through to the direct
series evaluation: c(n,z) = c_n_series(n,z). -/
theorem claim_C10 (n : ℕ) (hn : 6 ≤ n) (z : ℝ) (hz : 1 / 2 < z) :
    c n z = c_n_series n z :=
  c_fallthrough n z hn hz

/-- Witness for C10 at n = 6, z = 1. -/
theorem claim_C10_witness : c 6 1 = c_n_series 6 1 :=
  claim_C10 6 le_rfl 1 (by norm_num)

/- ------------------------------------------------------------------ -/
/- C8: all table accesses stay inside the 35-entry table.              -/
/- ------------------------------------------------------------------ -/

lemma cAccesses_else (n : ℕ) (z : ℝ) (hz : ¬ 1 / 2 < z) :
    cAccesses n z = seriesAccesses n := by
  rcases n with _|_|_|_|_|_|n
  all_goals rw [cAccesses]
  all_goals try rw [dif_neg hz]
  all_goals omega

lemma cAccesses_quad0 (z : ℝ) (hz : 1 / 2 < z) :
    cAccesses 0 z = cAccesses 3 (z / 4) ++ cAccesses 1 (z / 4) := by
  conv_lhs => rw [cAccesses, dif_pos hz]

lemma cAccesses_quad1 (z : ℝ) (hz : 1 / 2 < z) :
    cAccesses 1 z = cAccesses 5 (z / 4) ++ cAccesses 4 (z / 4)
      ++ cAccesses 3 (z / 4) ++ cAccesses 2 (z / 4) := by
  conv_lhs => rw [cAccesses, dif_pos hz]

lemma cAccesses_quad2 (z : ℝ) (hz : 1 / 2 < z) :
    cAccesses 2 z = cAccesses 3 (z / 4) ++ cAccesses 1 (z / 4) := by
  conv_lhs => rw [cAccesses, dif_pos hz]

lemma cAccesses_quad3 (z : ℝ) (hz : 1 / 2 < z) :
    cAccesses 3 z = cAccesses 5 (z / 4) ++ cAccesses 4 (z / 4)
      ++ cAccesses 3 (z / 4) ++ cAccesses 2 (z / 4) := by
  conv_lhs => rw [cAccesses, dif_pos hz]

lemma cAccesses_quad4 (z : ℝ) (hz : 1 / 2 < z) :
    cAccesses 4 z = cAccesses 3 (z / 4) ++ cAccesses 1 (z / 4) := by
  conv_lhs => rw [cAccesses, dif_pos hz]

lemma cAccesses_quad5 (z : ℝ) (hz : 1 / 2 < z) :
    cAccesses 5 z = cAccesses 5 (z / 4) ++ cAccesses 4 (z / 4)
      ++ cAccesses 3 (z / 4) ++ cAccesses 2 (z / 4) := by
  conv_lhs => rw [cAccesses, dif_pos hz]

lemma seriesAccesses_bound (n : ℕ) (hn : n ≤ 5) (i : ℕ)
    (hi : i ∈ seriesAccesses n) : i ≤ 29 ∧ i < 35 := by
  simp only [seriesAccesses, List.mem_map, List.mem_range] at hi
  obtain ⟨j, hj, rfl⟩ := hi
  omega

lemma cAccesses_bound : ∀ K : ℕ, ∀ z : ℝ, ⌈2 * z⌉₊ ≤ K →
    ∀ n ≤ 5, ∀ i ∈ cAccesses n z, i ≤ 29 ∧ i < 35 := by
  intro K
  induction K with
  | zero =>
    intro z hzK n hn i hi
    have hz : ¬ 1 / 2 < z := by
      intro hlt
      have h1 : (0 : ℝ) < 2 * z := by linarith
      have := Nat.ceil_pos.mpr h1
      omega
    rw [cAccesses_else n z hz] at hi
    exact seriesAccesses_bound n hn i hi
  | succ K ih =>
    intro z hzK n hn i hi
    by_cases hz : 1 / 2 < z
    · have hz4 : ⌈2 * (z / 4)⌉₊ ≤ K := by
        have := quarterMeasure hz
        omega
      interval_cases n
      · rw [cAccesses_quad0 z hz] at hi
        rcases List.mem_append.mp hi with h | h
        · exact ih (z / 4) hz4 3 (by norm_num) i h
        · exact ih (z / 4) hz4 1 (by norm_num) i h
      · rw [cAccesses_quad1 z hz] at hi
        rcases List.mem_append.mp hi with h | h
        · rcases List.mem_append.mp h with h2 | h2
          · rcases List.mem_append.mp h2 with h3 | h3
            · exact ih (z / 4) hz4 5 (by norm_num) i h3
            · exact ih (z / 4) hz4 4 (by norm_num) i h3
          · exact ih (z / 4) hz4 3 (by norm_num) i h2
        · exact ih (z / 4) hz4 2 (by norm_num) i h
      · rw [cAccesses_quad2 z hz] at hi
        rcases List.mem_append.mp hi with h | h
        · exact ih (z / 4) hz4 3 (by norm_num) i h
        · exact ih (z / 4) hz4 1 (by norm_num) i h
      · rw [cAccesses_quad3 z hz] at hi
        rcases List.mem_append.mp hi with h | h
        · rcases List.mem_append.mp h with h2 | h2
          · rcases List.mem_append.mp h2 with h3 | h3
            · exact ih (z / 4) hz4 5 (by norm_num) i h3
            · exact ih (z / 4) hz4 4 (by norm_num) i h3
          · exact ih (z / 4) hz4 3 (by norm_num) i h2
        · exact ih (z / 4) hz4 2 (by norm_num) i h
      · rw [cAccesses_quad4 z hz] at hi
        rcases List.mem_append.mp hi with h | h
        · exact ih (z / 4) hz4 3 (by norm_num) i h
        · exact ih (z / 4) hz4 1 (by norm_num) i h
      · rw [cAccesses_quad5 z hz] at hi
        rcases List.mem_append.mp hi with h | h
        · rcases List.mem_append.mp h with h2 | h2
          · rcases List.mem_append.mp h2 with h3 | h3
            · exact ih (z / 4) hz4 5 (by norm_num) i h3
            · exact ih (z / 4) hz4 4 (by norm_num) i h3
          · exact ih (z / 4) hz4 3 (by norm_num) i h2
        · exact ih (z / 4) hz4 2 (by norm_num) i h
    · rw [cAccesses_else n z hz] at hi
      exact seriesAccesses_bound n hn i hi

/-- Claim C8: under the precondition n ≤ 5, every reciprocal-factorial
table index read while evaluating c(n,z) — through the series loop
(indices n + 2j, j ≤ 12) and through every recursive quadrupling call,
which only uses Stumpff orders in {0,...,5} — is at most 5 + 24 = 29
and in particular inside the 35-entry table. -/
theorem claim_C8 (n : ℕ) (hn : n ≤ 5) (z : ℝ) (i : ℕ)
    (hi : i ∈ cAccesses n z) : i ≤ 29 ∧ i < 35 :=
  cAccesses_bound ⌈2 * z⌉₊ z le_rfl n hn i hi

/-- Witness for C8 at n = 5, z = 0, index 29 (the largest one). -/
theorem claim_C8_witness : 29 ≤ 29 ∧ 29 < 35 :=
  claim_C8 5 (by norm_num) 0 29
    (by rw [cAccesses_else 5 0 (by norm_num)]; decide)


/- ------------------------------------------------------------------ -/
/- C7: the quadrupling recursion terminates.                           -/
/- ------------------------------------------------------------------ -/

lemma cFuel_mono : ∀ k : ℕ, ∀ k2 n : ℕ, ∀ (z v : ℝ), k ≤ k2 →
    cFuel k n z = some v → cFuel k2 n z = some v := by
  intro k
  induction k with
  | zero =>
    intro k2 n z v _ h
    rw [cFuel] at h
    exact absurd h (by simp)
  | succ k ih =>
    intro k2 n z v hk h
    obtain ⟨k2m, rfl⟩ : ∃ m, k2 = m + 1 := ⟨k2 - 1, by omega⟩
    have hkm : k ≤ k2m := by omega
    by_cases hz : 1 / 2 < z
    · rcases n with _|_|_|_|_|_|n
      · rw [cFuel, if_pos hz] at h ⊢
        simp only [Option.bind_eq_some, Option.map_eq_some'] at h ⊢
        obtain ⟨a, ha, b, hb, hv⟩ := h
        exact ⟨a, ih k2m 3 _ a hkm ha, b, ih k2m 1 _ b hkm hb, hv⟩
      · rw [cFuel, if_pos hz] at h ⊢
        simp only [Option.bind_eq_some, Option.map_eq_some'] at h ⊢
        obtain ⟨a, ha, b, hb, d, hd, e, he, hv⟩ := h
        exact ⟨a, ih k2m 5 _ a hkm ha, b, ih k2m 4 _ b hkm hb,
          d, ih k2m 3 _ d hkm hd, e, ih k2m 2 _ e hkm he, hv⟩
      · rw [cFuel, if_pos hz] at h ⊢
        simp only [Option.bind_eq_some, Option.map_eq_some'] at h ⊢
        obtain ⟨a, ha, b, hb, hv⟩ := h
        exact ⟨a, ih k2m 3 _ a hkm ha, b, ih k2m 1 _ b hkm hb, hv⟩
      · rw [cFuel, if_pos hz] at h ⊢
        simp only [Option.bind_eq_some, Option.map_eq_some'] at h ⊢
        obtain ⟨a, ha, b, hb, d, hd, e, he, hv⟩ := h
        exact ⟨a, ih k2m 5 _ a hkm ha, b, ih k2m 4 _ b hkm hb,
          d, ih k2m 3 _ d hkm hd, e, ih k2m 2 _ e hkm he, hv⟩
      · rw [cFuel, if_pos hz] at h ⊢
        simp only [Option.bind_eq_some, Option.map_eq_some'] at h ⊢
        obtain ⟨a, ha, b, hb, hv⟩ := h
        exact ⟨a, ih k2m 3 _ a hkm ha, b, ih k2m 1 _ b hkm hb, hv⟩
      · rw [cFuel, if_pos hz] at h ⊢
        simp only [Option.bind_eq_some, Option.map_eq_some'] at h ⊢
        obtain ⟨a, ha, b, hb, d, hd, e, he, hv⟩ := h
        exact ⟨a, ih k2m 5 _ a hkm ha, b, ih k2m 4 _ b hkm hb,
          d, ih k2m 3 _ d hkm hd, e, ih k2m 2 _ e hkm he, hv⟩
      · rw [cFuel] at h ⊢ <;> try omega
        exact h
    · rcases n with _|_|_|_|_|_|n
      all_goals rw [cFuel, if_neg hz] at h ⊢ <;> try omega
      all_goals exact h

lemma cFuel_reaches : ∀ K : ℕ, ∀ z : ℝ, ⌈2 * z⌉₊ ≤ K → ∀ n, ∃ k, cFuel k n z = some (c n z) := by
  intro K
  induction K with
  | zero =>
    intro z hzK n
    have hz : ¬ 1 / 2 < z := by
      intro hlt
      have h1 : (0 : ℝ) < 2 * z := by linarith
      have := Nat.ceil_pos.mpr h1
      omega
    refine ⟨1, ?_⟩
    rcases n with _|_|_|_|_|_|n
    all_goals rw [cFuel, if_neg hz, c_eq_series _ z hz] <;> try omega
  | succ K ih =>
    intro z hzK n
    by_cases hz : 1 / 2 < z
    · have hz4 : ⌈2 * (z / 4)⌉₊ ≤ K := by
        have := quarterMeasure hz
        omega
      rcases n with _|_|_|_|_|_|n
      · obtain ⟨k3, h3⟩ := ih (z / 4) hz4 3
        obtain ⟨k1, h1⟩ := ih (z / 4) hz4 1
        refine ⟨max k3 k1 + 1, ?_⟩
        rw [cFuel, if_pos hz,
          cFuel_mono k3 (max k3 k1) 3 _ _ (le_max_left _ _) h3,
          cFuel_mono k1 (max k3 k1) 1 _ _ (le_max_right _ _) h1,
          c_zero_quad z hz]
        rfl
      · obtain ⟨k5, h5⟩ := ih (z / 4) hz4 5
        obtain ⟨k4, h4⟩ := ih (z / 4) hz4 4
        obtain ⟨k3, h3⟩ := ih (z / 4) hz4 3
        obtain ⟨k2, h2⟩ := ih (z / 4) hz4 2
        refine ⟨max (max k5 k4) (max k3 k2) + 1, ?_⟩
        rw [cFuel, if_pos hz,
          cFuel_mono k5 _ 5 _ _ (le_sup_of_le_left (le_max_left _ _)) h5,
          cFuel_mono k4 _ 4 _ _ (le_sup_of_le_left (le_max_right _ _)) h4,
          cFuel_mono k3 _ 3 _ _ (le_sup_of_le_right (le_max_left _ _)) h3,
          cFuel_mono k2 _ 2 _ _ (le_sup_of_le_right (le_max_right _ _)) h2,
          c_one_quad z hz]
        rfl
      · obtain ⟨k3, h3⟩ := ih (z / 4) hz4 3
        obtain ⟨k1, h1⟩ := ih (z / 4) hz4 1
        refine ⟨max k3 k1 + 1, ?_⟩
        rw [cFuel, if_pos hz,
          cFuel_mono k3 (max k3 k1) 3 _ _ (le_max_left _ _) h3,
          cFuel_mono k1 (max k3 k1) 1 _ _ (le_max_right _ _) h1,
          c_two_quad z hz]
        rfl
      · obtain ⟨k5, h5⟩ := ih (z / 4) hz4 5
        obtain ⟨k4, h4⟩ := ih (z / 4) hz4 4
        obtain ⟨k3, h3⟩ := ih (z / 4) hz4 3
        obtain ⟨k2, h2⟩ := ih (z / 4) hz4 2
        refine ⟨max (max k5 k4) (max k3 k2) + 1, ?_⟩
        rw [cFuel, if_pos hz,
          cFuel_mono k5 _ 5 _ _ (le_sup_of_le_left (le_max_left _ _)) h5,
          cFuel_mono k4 _ 4 _ _ (le_sup_of_le_left (le_max_right _ _)) h4,
          cFuel_mono k3 _ 3 _ _ (le_sup_of_le_right (le_max_left _ _)) h3,
          cFuel_mono k2 _ 2 _ _ (le_sup_of_le_right (le_max_right _ _)) h2,
          c_three_quad z hz]
        rfl
      · obtain ⟨k3, h3⟩ := ih (z / 4) hz4 3
        obtain ⟨k1, h1⟩ := ih (z / 4) hz4 1
        refine ⟨max k3 k1 + 1, ?_⟩
        rw [cFuel, if_pos hz,
          cFuel_mono k3 (max k3 k1) 3 _ _ (le_max_left _ _) h3,
          cFuel_mono k1 (max k3 k1) 1 _ _ (le_max_right _ _) h1,
          c_four_quad z hz]
        rfl
      · obtain ⟨k5, h5⟩ := ih (z / 4) hz4 5
        obtain ⟨k4, h4⟩ := ih (z / 4) hz4 4
        obtain ⟨k3, h3⟩ := ih (z / 4) hz4 3
        obtain ⟨k2, h2⟩ := ih (z / 4) hz4 2
        refine ⟨max (max k5 k4) (max k3 k2) + 1, ?_⟩
        rw [cFuel, if_pos hz,
          cFuel_mono k5 _ 5 _ _ (le_sup_of_le_left (le_max_left _ _)) h5,
          cFuel_mono k4 _ 4 _ _ (le_sup_of_le_left (le_max_right _ _)) h4,
          cFuel_mono k3 _ 3 _ _ (le_sup_of_le_right (le_max_left _ _)) h3,
          cFuel_mono k2 _ 2 _ _ (le_sup_of_le_right (le_max_right _ _)) h2,
          c_five_quad z hz]
        rfl
      · refine ⟨1, ?_⟩
        rw [cFuel] <;> try omega
        rw [if_pos hz, c_fallthrough _ z (by omega) hz]
    · refine ⟨1, ?_⟩
      rcases n with _|_|_|_|_|_|n
      all_goals rw [cFuel, if_neg hz, c_eq_series _ z hz] <;> try omega

/-- Claim C7: for n in {0,...,5} and any real z the recursive
evaluation of c(n,z) terminates: some finite recursion depth (fuel) is
enough, every recursive call being made at argument z/4, and the fueled
evaluation bottoms out in the series evaluator and yields c(n,z). -/
theorem claim_C7 (n : ℕ) (hn : n ≤ 5) (z : ℝ) :
    ∃ k, cFuel k n z = some (c n z) :=
  cFuel_reaches ⌈2 * z⌉₊ z le_rfl n

/-- Witness for C7 at n = 0, z = 1. -/
theorem claim_C7_witness : ∃ k, cFuel k 0 1 = some (c 0 1) :=
  claim_C7 0 (by norm_num) 1

/- ------------------------------------------------------------------ -/
/- C1: the Newton loop never exits when dt = 0.                        -/
/- ------------------------------------------------------------------ -/

/-- With dt = 0 and the initial guess X = 0 every Newton pass computes
s = 0, dX = 0 and the updated X stays 0, so the IEEE exit test
fabs(dX/X) < 1e-15 compares NaN and fails forever: no amount of fuel
makes the loop exit. -/
lemma newtonGo_zero_dt (r0 eta zeta beta : ℝ) :
    ∀ fuel, newtonGo r0 eta zeta beta 0 fuel 0 = none := by
  intro fuel
  induction fuel with
  | zero => rw [newtonGo]
  | succ k ih =>
    rw [newtonGo]
    norm_num [integrator_G]
    exact ih

/-- Claim C1 (code bug): for dt = 0 the source does NOT leave the body
unchanged; the Newton do-while never terminates, because after the
first pass X = 0 and dX = 0, so the exit test divides zero by zero
(NaN in IEEE arithmetic) and compare false on every iteration. In the
fueled model kepler_step returns none for every fuel, i.e. the state
update is never reached. -/
theorem claim_C1 (fuel : ℕ) (M : ℝ) (p : Particle) :
    kepler_step fuel 0 M p = none := by
  rw [kepler_step, keplerSolveX, newtonGo_zero_dt]

/- ------------------------------------------------------------------ -/
/- Concrete evaluation of kepler_step on pbody with dt = 5, M = 0.     -/
/- The central mass 0 makes every Gauss coefficient collapse without    -/
/- evaluating any Stumpff series, and the Newton loop converges on the  -/
/- second pass (s is linear because eta = zeta = 0).                    -/
/- ------------------------------------------------------------------ -/

lemma pbody_r0 : r0v pbody = 1 := by
  rw [r0v]
  norm_num [pbody, Real.sqrt_one]

lemma pbody_beta : betav 0 pbody = 0 := by
  rw [betav, pbody_r0]
  norm_num [v2v, pbody]

lemma pbody_eta : etav pbody = 0 := by
  norm_num [etav, pbody]

lemma pbody_zeta : zetav 0 pbody = 0 := by
  rw [zetav, pbody_beta, pbody_r0]
  norm_num

lemma pbody_solve : keplerSolveX 1 0 0 0 5 2 = some 5 := by
  rw [keplerSolveX]
  rw [show (2 : ℕ) = 1 + 1 from rfl, newtonGo]
  norm_num
  rw [show (1 : ℕ) = 0 + 1 from rfl, newtonGo]
  norm_num

lemma pbody_f : fCoef 0 pbody 5 = 1 := by
  norm_num [fCoef]

lemma pbody_g : gCoef 0 5 pbody 5 = 5 := by
  norm_num [gCoef]

lemma pbody_fd : fdCoef 0 pbody 5 = 0 := by
  norm_num [fdCoef]

lemma pbody_gd : gdCoef 0 pbody 5 = 1 := by
  norm_num [gdCoef]

lemma pbody_eval : kepler_step 2 5 0 pbody = some pbody := by
  rw [kepler_step, pbody_r0, pbody_beta, pbody_eta, pbody_zeta, pbody_solve]
  simp only [pbody_f, pbody_g, pbody_fd, pbody_gd]
  show some _ = some pbody
  rw [pbody]
  norm_num

/- ------------------------------------------------------------------ -/
/- C2 / C4: the Gauss f-g state update.                                -/
/- ------------------------------------------------------------------ -/

/-- Destructuring of a successful kepler_step: the converged X, the
three position assignments (reading the pre-step state) and the three
velocity assignments (reading the just-written position fields). -/
lemma kepler_step_fields (fuel : ℕ) (dtv M : ℝ) (p q : Particle)
    (h : kepler_step fuel dtv M p = some q) :
    ∃ X, keplerSolveX (r0v p) (etav p) (zetav M p) (betav M p) dtv fuel = some X ∧
      q.x = fCoef M p X * p.x + gCoef M dtv p X * p.vx ∧
      q.y = fCoef M p X * p.y + gCoef M dtv p X * p.vy ∧
      q.z = fCoef M p X * p.z + gCoef M dtv p X * p.vz ∧
      q.vx = fdCoef M p X * q.x + gdCoef M p X * p.vx ∧
      q.vy = fdCoef M p X * q.y + gdCoef M p X * p.vy ∧
      q.vz = fdCoef M p X * q.z + gdCoef M p X * p.vz := by
  rw [kepler_step] at h
  rcases hX : keplerSolveX (r0v p) (etav p) (zetav M p) (betav M p) dtv fuel with _ | X
  · rw [hX] at h
    exact absurd h (by simp)
  · rw [hX] at h
    simp only [Option.some.injEq] at h
    refine ⟨X, rfl, ?_⟩
    subst h
    norm_num

/-- Claim C2: the velocity update of kepler_step computes
new_velocity = fd*P + gd*old_velocity component-wise, where P is the
position value produced by the position update, i.e. the just-written
NEW position f*old_position + g*old_velocity (not the pre-update
position). -/
theorem claim_C2 (fuel : ℕ) (dtv M : ℝ) (p q : Particle)
    (h : kepler_step fuel dtv M p = some q) :
    ∃ X, keplerSolveX (r0v p) (etav p) (zetav M p) (betav M p) dtv fuel = some X ∧
      (q.x = fCoef M p X * p.x + gCoef M dtv p X * p.vx ∧
       q.y = fCoef M p X * p.y + gCoef M dtv p X * p.vy ∧
       q.z = fCoef M p X * p.z + gCoef M dtv p X * p.vz) ∧
      (q.vx = fdCoef M p X * q.x + gdCoef M p X * p.vx ∧
       q.vy = fdCoef M p X * q.y + gdCoef M p X * p.vy ∧
       q.vz = fdCoef M p X * q.z + gdCoef M p X * p.vz) := by
  obtain ⟨X, hX, h1, h2, h3, h4, h5, h6⟩ := kepler_step_fields fuel dtv M p q h
  exact ⟨X, hX, ⟨h1, h2, h3⟩, h4, h5, h6⟩

/-- Witness for C2: the concrete body pbody with dt = 5 and M = 0. -/
theorem claim_C2_witness :
    ∃ X, keplerSolveX (r0v pbody) (etav pbody) (zetav 0 pbody) (betav 0 pbody) 5 2
        = some X ∧
      (pbody.x = fCoef 0 pbody X * pbody.x + gCoef 0 5 pbody X * pbody.vx ∧
       pbody.y = fCoef 0 pbody X * pbody.y + gCoef 0 5 pbody X * pbody.vy ∧
       pbody.z = fCoef 0 pbody X * pbody.z + gCoef 0 5 pbody X * pbody.vz) ∧
      (pbody.vx = fdCoef 0 pbody X * pbody.x + gdCoef 0 pbody X * pbody.vx ∧
       pbody.vy = fdCoef 0 pbody X * pbody.y + gdCoef 0 pbody X * pbody.vy ∧
       pbody.vz = fdCoef 0 pbody X * pbody.z + gdCoef 0 pbody X * pbody.vz) :=
  claim_C2 2 5 0 pbody pbody pbody_eval

/-- Claim C4: after the Newton iteration converges to X, the position
update reads the pre-step position and velocity,
new_position = f*old_position + g*old_velocity component-wise, with
r = r0 + eta*G1 + zeta*G2, f = 1 - M*G2/r0, g = dt - M*G3,
fd = -M*G1/(r0*r) and gd = 1 - M*G2/r all evaluated at the converged
X. -/
theorem claim_C4 (fuel : ℕ) (dtv M : ℝ) (p q : Particle)
    (h : kepler_step fuel dtv M p = some q) :
    ∃ X, keplerSolveX (r0v p) (etav p) (zetav M p) (betav M p) dtv fuel = some X ∧
      q.x = fCoef M p X * p.x + gCoef M dtv p X * p.vx ∧
      q.y = fCoef M p X * p.y + gCoef M dtv p X * p.vy ∧
      q.z = fCoef M p X * p.z + gCoef M dtv p X * p.vz ∧
      rAfter M p X = r0v p + etav p * integrator_G 1 (betav M p) X
        + zetav M p * integrator_G 2 (betav M p) X ∧
      fCoef M p X = 1 - M * integrator_G 2 (betav M p) X / r0v p ∧
      gCoef M dtv p X = dtv - M * integrator_G 3 (betav M p) X ∧
      fdCoef M p X = (-M) * integrator_G 1 (betav M p) X / (r0v p * rAfter M p X) ∧
      gdCoef M p X = 1 - M * integrator_G 2 (betav M p) X / rAfter M p X := by
  obtain ⟨X, hX, h1, h2, h3, _, _, _⟩ := kepler_step_fields fuel dtv M p q h
  exact ⟨X, hX, h1, h2, h3, rfl, rfl, rfl, rfl, rfl⟩

/-- Witness for C4: the concrete body pbody with dt = 5 and M = 0. -/
theorem claim_C4_witness :
    ∃ X, keplerSolveX (r0v pbody) (etav pbody) (zetav 0 pbody) (betav 0 pbody) 5 2
        = some X ∧
      pbody.x = fCoef 0 pbody X * pbody.x + gCoef 0 5 pbody X * pbody.vx ∧
      pbody.y = fCoef 0 pbody X * pbody.y + gCoef 0 5 pbody X * pbody.vy ∧
      pbody.z = fCoef 0 pbody X * pbody.z + gCoef 0 5 pbody X * pbody.vz ∧
      rAfter 0 pbody X = r0v pbody + etav pbody * integrator_G 1 (betav 0 pbody) X
        + zetav 0 pbody * integrator_G 2 (betav 0 pbody) X ∧
      fCoef 0 pbody X = 1 - 0 * integrator_G 2 (betav 0 pbody) X / r0v pbody ∧
      gCoef 0 5 pbody X = 5 - 0 * integrator_G 3 (betav 0 pbody) X ∧
      fdCoef 0 pbody X = (-0) * integrator_G 1 (betav 0 pbody) X
        / (r0v pbody * rAfter 0 pbody X) ∧
      gdCoef 0 pbody X = 1 - 0 * integrator_G 2 (betav 0 pbody) X / rAfter 0 pbody X :=
  claim_C4 2 5 0 pbody pbody pbody_eval

/- ------------------------------------------------------------------ -/
/- C3: shape of the Newton iteration.                                  -/
/- ------------------------------------------------------------------ -/

/-- Claim C3: kepler_step solves s(X) = r0*X + eta*G2 + zeta*G3 - dt = 0
by Newton iteration with derivative sp(X) = r0 + eta*G1 + zeta*G2 and
update X := X - s/sp, starting from the initial guess X = 0; each pass
of the loop exits exactly when the IEEE test |dX/X| < 1e-15 on the
updated X succeeds (which requires that X to be nonzero) and otherwise
continues — there is no iteration cap, which the fuel parameter of the
model makes explicit: the recurrence below holds for every fuel value,
so the only exit is the convergence test itself. -/
theorem claim_C3 (r0 eta zeta beta dtv X : ℝ) (fuel : ℕ) :
    keplerSolveX r0 eta zeta beta dtv fuel = newtonGo r0 eta zeta beta dtv fuel 0 ∧
    newtonGo r0 eta zeta beta dtv (fuel + 1) X =
      (if X - sUniv r0 eta zeta beta dtv X / spUniv r0 eta zeta beta X ≠ 0 ∧
          |(X - sUniv r0 eta zeta beta dtv X / spUniv r0 eta zeta beta X - X) /
            (X - sUniv r0 eta zeta beta dtv X / spUniv r0 eta zeta beta X)| < 1 / 10 ^ 15
       then some (X - sUniv r0 eta zeta beta dtv X / spUniv r0 eta zeta beta X)
       else newtonGo r0 eta zeta beta dtv fuel
         (X - sUniv r0 eta zeta beta dtv X / spUniv r0 eta zeta beta X)) := by
  refine ⟨rfl, ?_⟩
  simp only [newtonGo, neg_div, sUniv, spUniv]
  set S := r0 * X + eta * integrator_G 2 beta X + zeta * integrator_G 3 beta X - dtv with hS
  set P := r0 + eta * integrator_G 1 beta X + zeta * integrator_G 2 beta X with hP
  have h2 : X - S / P - X = -(S / P) := by ring
  rw [h2]
  have h1 : X + -(S / P) = X - S / P := by ring
  rw [h1, neg_div]

/- ------------------------------------------------------------------ -/
/- C9: the step driver.                                                -/
/- ------------------------------------------------------------------ -/

lemma stepAll_some (fuel : ℕ) (dtv M : ℝ) : ∀ (ps qs : List Particle),
    stepAll fuel dtv M ps = some qs →
    qs.length = ps.length ∧
    ∀ (i : ℕ) (p : Particle), ps[i]? = some p →
      qs[i]? = kepler_step fuel dtv M p := by
  intro ps
  induction ps with
  | nil =>
    intro qs h
    rw [stepAll] at h
    simp only [Option.some.injEq] at h
    subst h
    refine ⟨rfl, ?_⟩
    intro i p hp
    simp at hp
  | cons p ps ih =>
    intro qs h
    rw [stepAll] at h
    rcases hk : kepler_step fuel dtv M p with _ | q
    · rw [hk] at h
      exact absurd h (by simp)
    · rw [hk] at h
      rcases hs : stepAll fuel dtv M ps with _ | qs2
      · rw [hs] at h
        exact absurd h (by simp)
      · rw [hs] at h
        simp only [Option.some.injEq] at h
        subst h
        obtain ⟨hlen, hget⟩ := ih qs2 hs
        refine ⟨by simp [hlen], ?_⟩
        intro i p2 hp
        cases i with
        | zero =>
          simp only [List.getElem?_cons_zero, Option.some.injEq] at hp
          subst hp
          simpa using hk.symm
        | succ j =>
          simp only [List.getElem?_cons_succ] at hp ⊢
          exact hget j p2 hp

/-- Claim C9: if integrator_part2 succeeds then body 0 (the central
body) is returned exactly unchanged, the clock has advanced by exactly
dt, no body is added or removed, and every body of index i ≥ 1 has
been replaced by exactly the result of kepler_step on it (bodies are
processed independently, in increasing index order in the source). -/
theorem claim_C9 (fuel : ℕ) (dtv : ℝ) (s s2 : SimState) (p0 : Particle)
    (h : integrator_part2 fuel dtv s = some s2)
    (h0 : s.particles[0]? = some p0) :
    s2.particles[0]? = some p0 ∧ s2.t = s.t + dtv ∧
    s2.particles.length = s.particles.length ∧
    ∀ (i : ℕ) (p : Particle), 0 < i → s.particles[i]? = some p →
      s2.particles[i]? = kepler_step fuel dtv p0.m p := by
  rw [integrator_part2] at h
  rcases hps : s.particles with _ | ⟨q0, rest⟩
  · rw [hps] at h0
    simp at h0
  · simp only [hps] at h
    rw [hps] at h0
    simp only [List.getElem?_cons_zero, Option.some.injEq] at h0
    subst h0
    rcases hsa : stepAll fuel dtv q0.m rest with _ | rest2
    · simp only [hsa] at h
      simp at h
    · simp only [hsa, Option.some.injEq] at h
      subst h
      obtain ⟨hlen, hget⟩ := stepAll_some fuel dtv q0.m rest rest2 hsa
      refine ⟨by simp, rfl, by simp [hlen], ?_⟩
      intro i p hi hp
      rcases i with _ | j
      · omega
      · simp only [List.getElem?_cons_succ] at hp ⊢
        exact hget j p hp

lemma sys0_eval : integrator_part2 2 5 sys0 = some ⟨[pcentral, pbody], 5⟩ := by
  rw [integrator_part2]
  show (match stepAll 2 5 pcentral.m [pbody] with
    | none => none
    | some rest2 => some (SimState.mk (pcentral :: rest2) (sys0.t + 5))) = _
  rw [show pcentral.m = (0 : ℝ) from rfl, stepAll, pbody_eval, stepAll]
  show some (SimState.mk [pcentral, pbody] (sys0.t + 5)) = _
  norm_num [sys0]

/-- Witness for C9 on the concrete two-body system sys0 with dt = 5:
the clock advance component of the claim. -/
theorem claim_C9_witness :
    (SimState.mk [pcentral, pbody] 5).t = sys0.t + 5 :=
  (claim_C9 2 5 sys0 ⟨[pcentral, pbody], 5⟩ pcentral sys0_eval
    (by simp [sys0])).2.1


/- ------------------------------------------------------------------ -/
/- C6: the early-exit series evaluation and its error bound.           -/
/- ------------------------------------------------------------------ -/

set_option maxHeartbeats 1000000 in
lemma invfacD_fact (k : ℕ) (hk : k < 35) : invfacD k = 1 / (Nat.factorial k : ℝ) := by
  interval_cases k <;> norm_num [invfacD, invfactorial, Nat.factorial]

lemma sumUpTo_succ (n : ℕ) (z : ℝ) (k : ℕ) :
    sumUpTo n z (k + 1) = sumUpTo n z k + sTerm n z k :=
  Finset.sum_range_succ _ _

lemma seriesGo_spec (n : ℕ) (z : ℝ) : ∀ (k j : ℕ), 13 = j + k →
    ∃ e, e < 13 ∧ j ≤ e + 1 ∧
      seriesGo n z j (sumUpTo n z j) = sumUpTo n z (e + 1) ∧
      (sGuard n z e ∨ e = 12) ∧
      (∀ i, j ≤ i → i < e → ¬ sGuard n z i) := by
  intro k
  induction k with
  | zero =>
    intro j hj
    obtain rfl : j = 13 := by omega
    refine ⟨12, by norm_num, by norm_num, ?_, Or.inr rfl, ?_⟩
    · rw [seriesGo]
      norm_num
    · intro i h1 h2
      omega
  | succ k ih =>
    intro j hj
    have hjlt : j < 13 := by omega
    have hstep : seriesGo n z j (sumUpTo n z j) =
        (if sumUpTo n z (j + 1) ≠ 0 ∧
            |sTerm n z j / sumUpTo n z (j + 1)| < 1 / 10 ^ 17
         then sumUpTo n z (j + 1)
         else seriesGo n z (j + 1) (sumUpTo n z (j + 1))) := by
      rw [seriesGo, dif_pos hjlt, ← sumUpTo_succ]
    by_cases hg : sumUpTo n z (j + 1) ≠ 0 ∧
        |sTerm n z j / sumUpTo n z (j + 1)| < 1 / 10 ^ 17
    · rw [hstep, if_pos hg]
      exact ⟨j, hjlt, Nat.le_succ j, rfl, Or.inl hg,
        fun i h1 h2 => absurd (lt_of_le_of_lt h1 h2) (lt_irrefl j)⟩
    · rw [hstep, if_neg hg]
      obtain ⟨e, he13, hje, hres, hguard, hnone⟩ := ih (j + 1) (by omega)
      refine ⟨e, he13, by omega, hres, hguard, ?_⟩
      intro i h1 h2
      rcases Nat.eq_or_lt_of_le h1 with rfl | hlt
      · exact hg
      · exact hnone i hlt h2

lemma c_n_series_spec (n : ℕ) (z : ℝ) :
    ∃ e, e < 13 ∧ c_n_series n z = sumUpTo n z (e + 1) ∧
      (sGuard n z e ∨ e = 12) ∧ ∀ i, i < e → ¬ sGuard n z i := by
  obtain ⟨e, h1, _, h4, h5, h6⟩ := seriesGo_spec n z 13 0 rfl
  have h0 : sumUpTo n z 0 = 0 := Finset.sum_range_zero _
  rw [h0] at h4
  exact ⟨e, h1, h4, h5, fun i hi => h6 i (Nat.zero_le i) hi⟩

lemma rq_nonneg (n : ℕ) (z : ℝ) (j : ℕ) : 0 ≤ rq n z j := by
  rw [rq]
  positivity

lemma rq_anti (n : ℕ) (z : ℝ) (i j : ℕ) (h : i ≤ j) : rq n z j ≤ rq n z i := by
  have hij : (i : ℝ) ≤ (j : ℝ) := Nat.cast_le.mpr h
  rw [rq, rq]
  gcongr

lemma invfacD_pos (k : ℕ) (hk : k < 35) : 0 < invfacD k := by
  rw [invfacD_fact k hk]
  positivity

lemma sTerm_abs (n : ℕ) (z : ℝ) (j : ℕ) (h : n + 2 * j < 35) :
    |sTerm n z j| = |z| ^ j * invfacD (n + 2 * j) := by
  rw [sTerm, abs_mul, abs_pow, abs_neg, abs_of_pos (invfacD_pos _ h)]

lemma sTerm_abs_succ (n : ℕ) (hn : n ≤ 10) (z : ℝ) (j : ℕ) (hj : j < 12) :
    |sTerm n z (j + 1)| = |sTerm n z j| * rq n z j := by
  have h1 : n + 2 * j < 35 := by omega
  have h2 : n + 2 * (j + 1) < 35 := by omega
  rw [sTerm_abs n z j h1, sTerm_abs n z (j + 1) h2, rq]
  rw [invfacD_fact _ h1, invfacD_fact _ h2]
  have hfac : (Nat.factorial (n + 2 * (j + 1)) : ℝ)
      = (Nat.factorial (n + 2 * j) : ℝ)
        * (((n : ℝ) + 2 * j + 1) * ((n : ℝ) + 2 * j + 2)) := by
    have h3 : n + 2 * (j + 1) = (n + 2 * j + 1) + 1 := by omega
    rw [h3, Nat.factorial_succ, Nat.factorial_succ]
    push_cast
    ring
  rw [hfac, pow_succ]
  have hp1 : (0 : ℝ) < (Nat.factorial (n + 2 * j) : ℝ) := by
    positivity
  have hp2 : (0 : ℝ) < ((n : ℝ) + 2 * j + 1) * ((n : ℝ) + 2 * j + 2) := by
    positivity
  field_simp

lemma sTerm_zero_pos (n : ℕ) (z : ℝ) (hn : n ≤ 10) : 0 < |sTerm n z 0| := by
  have h : n + 2 * 0 < 35 := by omega
  rw [sTerm_abs n z 0 h, pow_zero, one_mul]
  exact invfacD_pos _ h

lemma sTerm_decay (n : ℕ) (hn : n ≤ 10) (z : ℝ) (a : ℕ) (q : ℝ) (hq0 : 0 ≤ q) :
    ∀ d : ℕ, a + d ≤ 12 → (∀ i, a ≤ i → i < a + d → q ≤ rq n z i) →
    |sTerm n z a| * q ^ d ≤ |sTerm n z (a + d)| := by
  intro d
  induction d with
  | zero =>
    intro _ _
    simp
  | succ d ih =>
    intro hle hq
    have h1 : |sTerm n z a| * q ^ d ≤ |sTerm n z (a + d)| :=
      ih (by omega) (fun i hi1 hi2 => hq i hi1 (by omega))
    have h2 : |sTerm n z (a + d + 1)| = |sTerm n z (a + d)| * rq n z (a + d) :=
      sTerm_abs_succ n hn z (a + d) (by omega)
    have h3 : q ≤ rq n z (a + d) := hq (a + d) (by omega) (by omega)
    calc |sTerm n z a| * q ^ (d + 1) = |sTerm n z a| * q ^ d * q := by ring
    _ ≤ |sTerm n z (a + d)| * rq n z (a + d) :=
        mul_le_mul h1 h3 hq0 (abs_nonneg _)
    _ = |sTerm n z (a + (d + 1))| := h2.symm

lemma tail_term_le (n : ℕ) (hn : n ≤ 10) (z : ℝ) (e : ℕ) (he : e < 12) (q : ℝ)
    (hq0 : 0 ≤ q) (hrq : rq n z e ≤ q) (hq1 : q ≤ 1) :
    ∀ k, 1 ≤ k → e + k ≤ 12 → |sTerm n z (e + k)| ≤ q * |sTerm n z e| := by
  intro k
  induction k with
  | zero =>
    intro h
    omega
  | succ k ih =>
    intro _ hk12
    rcases Nat.eq_zero_or_pos k with rfl | hk
    · rw [sTerm_abs_succ n hn z e (by omega)]
      calc |sTerm n z e| * rq n z e ≤ |sTerm n z e| * q :=
            mul_le_mul_of_nonneg_left hrq (abs_nonneg _)
      _ = q * |sTerm n z e| := mul_comm _ _
    · have h1 : |sTerm n z (e + k)| ≤ q * |sTerm n z e| := ih hk (by omega)
      have h2 : |sTerm n z (e + k + 1)| = |sTerm n z (e + k)| * rq n z (e + k) :=
        sTerm_abs_succ n hn z (e + k) (by omega)
      have h3 : rq n z (e + k) ≤ 1 :=
        le_trans (le_trans (rq_anti n z e (e + k) (by omega)) hrq) hq1
      calc |sTerm n z (e + (k + 1))| = |sTerm n z (e + k)| * rq n z (e + k) := h2
      _ ≤ q * |sTerm n z e| * 1 :=
          mul_le_mul h1 h3 (rq_nonneg _ _ _) (mul_nonneg hq0 (abs_nonneg _))
      _ = q * |sTerm n z e| := by ring

lemma exit_bound (n : ℕ) (hn : n ≤ 10) (z : ℝ) (e : ℕ) (he12 : e < 12)
    (hg : sGuard n z e) :
    |sumUpTo n z (e + 1) - fullSum n z| ≤ 1 / 10 ^ 17 * |fullSum n z| := by
  obtain ⟨hA0, hAg⟩ := hg
  have hApos : 0 < |sumUpTo n z (e + 1)| := abs_pos.mpr hA0
  have hterm_lt : |sTerm n z e| < 1 / 10 ^ 17 * |sumUpTo n z (e + 1)| := by
    rw [abs_div] at hAg
    calc |sTerm n z e|
        = |sTerm n z e| / |sumUpTo n z (e + 1)| * |sumUpTo n z (e + 1)| := by
          field_simp
    _ < 1 / 10 ^ 17 * |sumUpTo n z (e + 1)| := mul_lt_mul_of_pos_right hAg hApos
  obtain ⟨m, hm_mem, hm_max⟩ := Finset.exists_max_image (Finset.range (e + 1))
    (fun j => |sTerm n z j|) ⟨0, Finset.mem_range.mpr (Nat.succ_pos e)⟩
  have hm_le : m ≤ e := by
    have := Finset.mem_range.mp hm_mem
    omega
  have hm_pos : 0 < |sTerm n z m| :=
    lt_of_lt_of_le (sTerm_zero_pos n z hn)
      (hm_max 0 (Finset.mem_range.mpr (Nat.succ_pos e)))
  have hA13 : |sumUpTo n z (e + 1)| ≤ 13 * |sTerm n z m| := by
    have he11 : (e : ℝ) ≤ 11 := by exact_mod_cast (by omega : e ≤ 11)
    calc |sumUpTo n z (e + 1)|
        ≤ ∑ j ∈ Finset.range (e + 1), |sTerm n z j| := by
          rw [sumUpTo]
          exact Finset.abs_sum_le_sum_abs _ _
    _ ≤ (e + 1 : ℕ) * |sTerm n z m| := by
          have h := Finset.sum_le_card_nsmul (Finset.range (e + 1))
            (fun j => |sTerm n z j|) (|sTerm n z m|) (fun i hi => hm_max i hi)
          simpa [Finset.card_range, nsmul_eq_mul] using h
    _ ≤ 13 * |sTerm n z m| := by
          have hcast : ((e + 1 : ℕ) : ℝ) ≤ 13 := by
            push_cast
            linarith
          nlinarith [abs_nonneg (sTerm n z m)]
  have hterm_lt13 : |sTerm n z e| < 13 * (1 / 10 ^ 17) * |sTerm n z m| := by
    nlinarith
  have hm_lt : m < e := by
    by_contra hge
    push_neg at hge
    have hme : m = e := le_antisymm hm_le hge
    subst hme
    nlinarith
  have hsmall : rq n z (e - 1) < 6 / 125 := by
    by_contra hge
    push_neg at hge
    have hdecay : |sTerm n z m| * rq n z (e - 1) ^ (e - m) ≤ |sTerm n z e| := by
      have h := sTerm_decay n hn z m (rq n z (e - 1)) (rq_nonneg _ _ _) (e - m)
        (by omega) (fun i hi1 hi2 => rq_anti n z i (e - 1) (by omega))
      have hme : m + (e - m) = e := by omega
      rwa [hme] at h
    have hpow : (6 / 125 : ℝ) ^ (e - m) ≤ rq n z (e - 1) ^ (e - m) :=
      pow_le_pow_left₀ (by norm_num) hge _
    have hpow12 : (6 / 125 : ℝ) ^ 12 ≤ (6 / 125 : ℝ) ^ (e - m) :=
      pow_le_pow_of_le_one (by norm_num) (by norm_num) (by omega)
    have hkey : |sTerm n z m| * (6 / 125 : ℝ) ^ 12 ≤ |sTerm n z e| := by
      have h1 : (6 / 125 : ℝ) ^ 12 ≤ rq n z (e - 1) ^ (e - m) := le_trans hpow12 hpow
      nlinarith
    have hc : (13 : ℝ) * (1 / 10 ^ 17) < (6 / 125 : ℝ) ^ 12 := by norm_num
    nlinarith
  have hrq_e : rq n z e ≤ 6 / 125 := by
    have h := rq_anti n z (e - 1) e (by omega)
    linarith
  have htail : ∀ k, 1 ≤ k → e + k ≤ 12 →
      |sTerm n z (e + k)| ≤ 6 / 125 * |sTerm n z e| :=
    tail_term_le n hn z e he12 (6 / 125) (by norm_num) hrq_e (by norm_num)
  have hdiff : fullSum n z - sumUpTo n z (e + 1)
      = ∑ j ∈ Finset.Ico (e + 1) 13, sTerm n z j := by
    rw [fullSum, sumUpTo, sumUpTo]
    exact (Finset.sum_Ico_eq_sub _ (by omega)).symm
  have htail_sum : |fullSum n z - sumUpTo n z (e + 1)|
      ≤ 12 * (6 / 125 * |sTerm n z e|) := by
    rw [hdiff]
    calc |∑ j ∈ Finset.Ico (e + 1) 13, sTerm n z j|
        ≤ ∑ j ∈ Finset.Ico (e + 1) 13, |sTerm n z j| :=
          Finset.abs_sum_le_sum_abs _ _
    _ ≤ ∑ _j ∈ Finset.Ico (e + 1) 13, (6 / 125 * |sTerm n z e|) := by
        apply Finset.sum_le_sum
        intro j hj
        have hj2 := Finset.mem_Ico.mp hj
        have hje : e + (j - e) = j := by omega
        have h := htail (j - e) (by omega) (by omega)
        rwa [hje] at h
    _ = ((13 - (e + 1) : ℕ) : ℝ) * (6 / 125 * |sTerm n z e|) := by
        rw [Finset.sum_const, Nat.card_Ico, nsmul_eq_mul]
    _ ≤ 12 * (6 / 125 * |sTerm n z e|) := by
        have h1 : ((13 - (e + 1) : ℕ) : ℝ) ≤ 12 := by
          exact_mod_cast (by omega : 13 - (e + 1) ≤ 12)
        have h2 : (0 : ℝ) ≤ 6 / 125 * |sTerm n z e| := by positivity
        nlinarith
  have habs2 : |sumUpTo n z (e + 1)| - |fullSum n z - sumUpTo n z (e + 1)|
      ≤ |fullSum n z| := by
    have h := abs_sub_abs_le_abs_sub (sumUpTo n z (e + 1)) (fullSum n z)
    rw [abs_sub_comm] at h
    linarith
  rw [abs_sub_comm]
  have hT : |fullSum n z - sumUpTo n z (e + 1)|
      ≤ 72 / 125 * (1 / 10 ^ 17) * |sumUpTo n z (e + 1)| := by
    nlinarith
  have hcc : (72 / 125 : ℝ) * (1 / 10 ^ 17)
      ≤ 1 / 10 ^ 17 - 1 / 10 ^ 17 * (72 / 125 * (1 / 10 ^ 17)) := by
    norm_num
  nlinarith [hApos, abs_nonneg (fullSum n z)]

/-- Claim C6: c_n_series returns the partial sum of terms
(-z)^j/(n+2j)! read from the table at indices n+2j, cut at the first
index where the just-added term is (relatively) below 1e-17, or at the
full 13 terms; and the early exit changes the result by no more than
that tolerance relative to the full 13-term sum. Stated for every n
whose 13 table accesses are in range (n ≤ 10), which covers the whole
documented domain n ≤ 5. -/
theorem claim_C6 (n : ℕ) (hn : n ≤ 10) (z : ℝ) :
    (∃ e, e < 13 ∧ c_n_series n z = sumUpTo n z (e + 1) ∧
      (sGuard n z e ∨ e = 12) ∧ ∀ i, i < e → ¬ sGuard n z i) ∧
    |c_n_series n z - fullSum n z| ≤ 1 / 10 ^ 17 * |fullSum n z| := by
  refine ⟨c_n_series_spec n z, ?_⟩
  obtain ⟨e, he, heq, hguard, _⟩ := c_n_series_spec n z
  rw [heq]
  rcases hguard with hg | rfl
  · rcases Nat.lt_or_ge e 12 with h12 | h12
    · exact exit_bound n hn z e h12 hg
    · obtain rfl : e = 12 := by omega
      rw [show sumUpTo n z (12 + 1) = fullSum n z from rfl, sub_self, abs_zero]
      positivity
  · rw [show sumUpTo n z (12 + 1) = fullSum n z from rfl, sub_self, abs_zero]
    positivity

/-- Witness for C6 at n = 0, z = 0. -/
theorem claim_C6_witness :
    (∃ e, e < 13 ∧ c_n_series 0 (0 : ℝ) = sumUpTo 0 (0 : ℝ) (e + 1) ∧
      (sGuard 0 (0 : ℝ) e ∨ e = 12) ∧ ∀ i, i < e → ¬ sGuard 0 (0 : ℝ) i) ∧
    |c_n_series 0 (0 : ℝ) - fullSum 0 (0 : ℝ)|
      ≤ 1 / 10 ^ 17 * |fullSum 0 (0 : ℝ)| :=
  claim_C6 0 (by norm_num) 0

end Mikkola
